import Mathlib

/-!
Verification of the action-reference gateway (gateway.py): an allow-list of
pinned CI action references stored as a two-level ordered mapping
(action name -> reference -> details), with four core operations:
generate_workflow, update_refs, create_pattern and remove_expired_refs.

Modelling choices, all taken from the source:
* Python dicts preserve insertion order, so both mapping levels are
  association lists; keys are unique in any store that came from a dict.
* Calendar dates are proleptic Gregorian ordinals (integers), so that
  date.today() is an arbitrary integer parameter `today` and adding weeks
  is adding 7 * weeks days.
* An uncaught Python exception is modelled by an Option-valued function
  returning none.
-/

/-- Details attached to one pinned reference: the expiry date (a day
ordinal) and the optional keep flag; a key absent from the YAML mapping is
modelled as none. -/
structure RefDetails where
  expires_at : Int
  keep : Option Bool
deriving DecidableEq, Repr

/-- A RefGroup: ordered mapping from reference string to its details. -/
abbrev ActionRefs := List (String × RefDetails)

/-- The action store: ordered mapping from action name to its RefGroup. -/
abbrev ActionsYAML := List (String × ActionRefs)

/-- Truthiness of details.get of the keep key: an absent key behaves as
False, as does an explicit False value. -/
def keepVal (d : RefDetails) : Bool := d.keep.getD false

/-- calculate_expiry from the source: today plus the given number of
weeks, a week being 7 days. The source default weeks=4 is written
explicitly at call sites here. -/
def calculate_expiry (today : Int) (weeks : Int) : Int := today + 7 * weeks

/-- Dict lookup d[k] on an association list: the first binding wins (the
only one, for a store that came from a Python dict). -/
def dictGet : List (String × α) → String → Option α
  | [], _ => none
  | (k, v) :: t, k' => if k = k' then some v else dictGet t k'

/-- Membership test, the Python `in` operator on dicts. -/
def dictMem (l : List (String × α)) (k : String) : Bool := (dictGet l k).isSome

/-- Assignment d[k] = v: overwrite in place when the key is present, else
append at the end, matching dict insertion-order semantics. -/
def dictSet : List (String × α) → String → α → List (String × α)
  | [], k, v => [(k, v)]
  | (k', v') :: t, k, v => if k' = k then (k, v) :: t else (k', v') :: dictSet t k v

/-- Deletion del d[k]: removes the first binding of k. -/
def dictDel : List (String × α) → String → List (String × α)
  | [], _ => []
  | (k', v') :: t, k => if k' = k then t else (k', v') :: dictDel t k

/-- Helper of splitOnChar: prepend a character to the first part. -/
def consPart (x : Char) : List (List Char) → List (List Char)
  | [] => [[x]]
  | h :: t => (x :: h) :: t

/-- Split a character list at every occurrence of c, as Python str.split
with a one-character separator: n occurrences yield n + 1 parts. -/
def splitOnChar (c : Char) : List Char → List (List Char)
  | [] => [[]]
  | x :: t => if x = c then [] :: splitOnChar c t else consPart x (splitOnChar c t)

/-- The unpacking `name, new_ref = step["uses"].split("@")` in
update_refs: it succeeds exactly when the split yields two parts, that is
when the string holds exactly one separator; any other number of parts
raises a ValueError, modelled as none. -/
def parseUses (s : String) : Option (String × String) :=
  match splitOnChar '@' s.data with
  | [n, r] => some (String.mk n, String.mk r)
  | _ => none

/-- The fixed workflow header of generate_workflow. -/
def headerStr : String := "name: Dummy Workflow\n\non:\n  workflow_dispatch:\n\njobs:\n  dummy:\n    if: false\n    runs-on: ubuntu-latest\n    steps:\n"

/-- The per-pair inclusion test of generate_workflow: strictly beyond the
four-week horizon and not kept. -/
def workflowCond (today : Int) (d : RefDetails) : Bool :=
  decide (d.expires_at > calculate_expiry today 4) && !keepVal d

/-- generate_workflow from the source: the fixed header followed by the
step lines of the qualifying pairs, joined by newlines. -/
def generate_workflow (today : Int) (actions : ActionsYAML) : String :=
  headerStr ++ String.intercalate "\n"
    ((actions.map (fun nr =>
      nr.2.filterMap (fun rd =>
        if workflowCond today rd.2 then
          some ("      - uses: " ++ nr.1 ++ "@" ++ rd.1)
        else none))).flatten)

/-- The sibling bump inside update_refs: every reference already in the
group gets expires_at = calculate_expiry(12); its keep flag is untouched. -/
def bumpAll (today : Int) (refs : ActionRefs) : ActionRefs :=
  refs.map (fun rd => (rd.1, { rd.2 with expires_at := calculate_expiry today 12 }))

/-- date(2100, 1, 1) as a proleptic Gregorian ordinal: the far-future
sentinel expiry of a newly inserted reference. -/
def sentinelDate : Int := 766645

/-- The details written for a newly observed reference. -/
def newRefDetails : RefDetails := { expires_at := sentinelDate, keep := some false }

/-- One pass of the update_refs loop body over the uses string of one
observed step; none models the uncaught unpacking error. -/
def processStep (today : Int) (action_refs : ActionsYAML) (uses : String) :
    Option ActionsYAML :=
  match parseUses uses with
  | none => none
  | some (name, new_ref) =>
    let acc := if dictMem action_refs name then action_refs else dictSet action_refs name []
    let refs := (dictGet acc name).getD []
    if dictMem refs new_ref then some acc
    else some (dictSet acc name (dictSet (bumpAll today refs) new_ref newRefDetails))

/-- update_refs from the source; observed steps are represented by their
uses strings, the only field the function reads. An error in any step
aborts the whole call, as the uncaught exception would. -/
def update_refs (today : Int) (dummy_steps : List String) (action_refs : ActionsYAML) :
    Option ActionsYAML :=
  match dummy_steps with
  | [] => some action_refs
  | u :: t =>
    match processStep today action_refs u with
    | none => none
    | some acc => update_refs today t acc

/-- The per-pair inclusion test of create_pattern: today strictly before
the expiry, or kept. -/
def patternCond (today : Int) (d : RefDetails) : Bool :=
  decide (today < d.expires_at) || keepVal d

/-- create_pattern from the source. -/
def create_pattern (today : Int) (actions : ActionsYAML) : List String :=
  (actions.map (fun nr =>
    nr.2.filterMap (fun rd =>
      if patternCond today rd.2 then some (nr.1 ++ "@" ++ rd.1) else none))).flatten

/-- The per-pair removal test of remove_expired_refs: expired today or
earlier, and not kept. -/
def expiredCond (today : Int) (d : RefDetails) : Bool :=
  decide (d.expires_at ≤ today) && !keepVal d

/-- The collect pass of remove_expired_refs: every pair whose details pass
expiredCond, in store iteration order. -/
def collectExpired (today : Int) (actions : ActionsYAML) : List (String × String) :=
  (actions.map (fun nr =>
    nr.2.filterMap (fun rd =>
      if expiredCond today rd.2 then some (nr.1, rd.1) else none))).flatten

/-- The delete pass body of remove_expired_refs: delete the reference from
its group, then drop the name if its group has become empty. The collect
pass only yields names present in the store and a name is dropped only
right after its last collected reference, so the lookup always succeeds
inside remove_expired_refs; a failed lookup is left as the identity. -/
def delPair (actions : ActionsYAML) (name ref : String) : ActionsYAML :=
  match dictGet actions name with
  | none => actions
  | some refs =>
    let refs1 := dictDel refs ref
    if refs1 = [] then dictDel actions name else dictSet actions name refs1

/-- remove_expired_refs from the source: collect, then delete. -/
def remove_expired_refs (today : Int) (actions : ActionsYAML) : ActionsYAML :=
  (collectExpired today actions).foldl (fun acc p => delPair acc p.1 p.2) actions

/-- Spec-side flat view of the store: the (name, reference, details)
triples in store iteration order. -/
def storePairs (actions : ActionsYAML) : List (String × String × RefDetails) :=
  (actions.map (fun nr => nr.2.map (fun rd => (nr.1, rd.1, rd.2)))).flatten

/-- Spec-side reading of the synthesizer body: one step line per pair
strictly beyond the four-week horizon and not kept, in store order. -/
def stepsSpec (today : Int) (actions : ActionsYAML) : List String :=
  ((storePairs actions).filter (fun t => workflowCond today t.2.2)).map
    (fun t => "      - uses: " ++ t.1 ++ "@" ++ t.2.1)

/-- Spec-side reading of the pattern generator: the name-at-reference
strings of the pairs with today strictly before expiry or kept. -/
def patternSpec (today : Int) (actions : ActionsYAML) : List String :=
  ((storePairs actions).filter (fun t => patternCond today t.2.2)).map
    (fun t => t.1 ++ "@" ++ t.2.1)

/-- Spec-side reading of the pruner: drop exactly the expired unkept
pairs, then drop every name whose group has become empty. -/
def pruneSpec (today : Int) (actions : ActionsYAML) : ActionsYAML :=
  (actions.map (fun nr => (nr.1, nr.2.filter (fun rd => !expiredCond today rd.2)))).filter
    (fun nr => !nr.2.isEmpty)

/-- Well-formedness inherited from the Python data model: names are dict
keys (no duplicates), references are dict keys within each group, and
every name maps to a non-empty group (the documented store invariant). -/
def WF (actions : ActionsYAML) : Prop :=
  (actions.map Prod.fst).Nodup ∧ ∀ nr ∈ actions, (nr.2.map Prod.fst).Nodup ∧ nr.2 ≠ []

instance instDecidableWF (A : ActionsYAML) : Decidable (WF A) := by
  unfold WF
  infer_instance

/-- The pair (name, reference) is bound in the store. -/
def hasPair (actions : ActionsYAML) (name ref : String) : Bool :=
  match dictGet actions name with
  | none => false
  | some refs => dictMem refs ref

/-- The references one group contributes to the collect pass of
remove_expired_refs, in group order. -/
def expiredKeys (today : Int) (g : ActionRefs) : List String :=
  g.filterMap (fun rd => if expiredCond today rd.2 then some rd.1 else none)


theorem dictGet_eq_none (l : List (String × α)) (k : String) :
    dictGet l k = none ↔ k ∉ l.map Prod.fst := by
  induction l with
  | nil => simp [dictGet]
  | cons hd t ih =>
    obtain ⟨k', v'⟩ := hd
    rw [dictGet]
    by_cases hk : k' = k
    · subst hk
      simp
    · rw [if_neg hk, ih]
      constructor
      · intro h hm
        rcases List.mem_cons.mp hm with h1 | h2
        · exact hk h1.symm
        · exact h h2
      · intro h hm
        exact h (List.mem_cons_of_mem _ hm)

theorem dictGet_set_self (l : List (String × α)) (k : String) (v : α) :
    dictGet (dictSet l k v) k = some v := by
  induction l with
  | nil => simp [dictSet, dictGet]
  | cons hd t ih =>
    obtain ⟨k', v'⟩ := hd
    by_cases hk : k' = k <;> simp [dictSet, dictGet, hk, ih]

theorem dictGet_set_ne (l : List (String × α)) (k k' : String) (v : α) (h : k ≠ k') :
    dictGet (dictSet l k v) k' = dictGet l k' := by
  induction l with
  | nil => simp [dictSet, dictGet, h]
  | cons hd t ih =>
    obtain ⟨ka, va⟩ := hd
    rw [dictSet]
    by_cases hk : ka = k
    · rw [if_pos hk, dictGet, if_neg h, dictGet, if_neg (fun hh => h (hk.symm.trans hh))]
    · rw [if_neg hk, dictGet, dictGet]
      by_cases hk' : ka = k'
      · rw [if_pos hk', if_pos hk']
      · rw [if_neg hk', if_neg hk', ih]

theorem dictSet_not_mem (l : List (String × α)) (k : String) (v : α)
    (h : dictMem l k = false) : dictSet l k v = l ++ [(k, v)] := by
  induction l with
  | nil => rfl
  | cons hd t ih =>
    obtain ⟨k', v'⟩ := hd
    rw [dictMem] at h
    by_cases hk : k' = k
    · simp [dictGet, hk] at h
    · rw [dictGet, if_neg hk] at h
      simp [dictSet, hk, ih h]

theorem dictGet_bumpAll (today : Int) (refs : ActionRefs) (k : String) :
    dictGet (bumpAll today refs) k =
      (dictGet refs k).map
        (fun d => { expires_at := calculate_expiry today 12, keep := d.keep }) := by
  induction refs with
  | nil => rfl
  | cons hd t ih =>
    by_cases hk : hd.1 = k
    · simp [bumpAll, dictGet, hk]
    · simp [bumpAll, dictGet, hk]
      simpa [bumpAll] using ih

theorem dictMem_bumpAll (today : Int) (refs : ActionRefs) (k : String) :
    dictMem (bumpAll today refs) k = dictMem refs k := by
  rw [dictMem, dictMem, dictGet_bumpAll]
  cases dictGet refs k <;> rfl

theorem dictGet_append_left (l l' : List (String × α)) (k : String)
    (h : dictMem l k = true) : dictGet (l ++ l') k = dictGet l k := by
  induction l with
  | nil => simp [dictMem, dictGet] at h
  | cons hd t ih =>
    obtain ⟨k', v'⟩ := hd
    by_cases hk : k' = k
    · simp [dictGet, hk]
    · rw [dictMem, dictGet, if_neg hk] at h
      simp [dictGet, hk, ih h]

theorem processStep_new (today : Int) (A : ActionsYAML) (u n r : String) (refs : ActionRefs)
    (hp : parseUses u = some (n, r)) (hn : dictGet A n = some refs)
    (hr : dictMem refs r = false) :
    processStep today A u = some (dictSet A n (bumpAll today refs ++ [(r, newRefDetails)])) := by
  have hm : dictMem A n = true := by rw [dictMem, hn]; rfl
  have hrb : dictMem (bumpAll today refs) r = false := by rw [dictMem_bumpAll]; exact hr
  rw [processStep, hp]
  simp only [hm, if_true, hn, Option.getD_some, hr, Bool.false_eq_true, if_false,
    dictSet_not_mem _ _ _ hrb]

/-- C1: when the name exists in the store and the observed reference is
new to its group, update_refs rewrites the expiry of every reference
already in the group to today plus 12 weeks (keeping each keep flag) and
appends the new reference at the end of the group with the sentinel expiry
date 2100-01-01 and keep = false. -/
theorem update_refs_new_ref_grace (today : Int) (A : ActionsYAML) (u n r : String)
    (refs : ActionRefs) (hp : parseUses u = some (n, r)) (hn : dictGet A n = some refs)
    (hr : dictMem refs r = false) :
    update_refs today [u] A =
      some (dictSet A n
        ((refs.map fun rd => (rd.1, { rd.2 with expires_at := calculate_expiry today 12 })) ++
          [(r, { expires_at := sentinelDate, keep := some false })])) := by
  rw [update_refs, processStep_new today A u n r refs hp hn hr]
  rfl

/-- Witness for C1: one sibling expiring in a week is bumped to 12 weeks
out and the new reference lands at the end with the sentinel details. -/
theorem update_refs_new_ref_grace_witness :
    update_refs 100 ["o/r@r2"] [("o/r", [("r1", ⟨107, none⟩)])] =
      some [("o/r", [("r1", ⟨184, none⟩), ("r2", ⟨766645, some false⟩)])] := by
  rw [update_refs_new_ref_grace 100 [("o/r", [("r1", ⟨107, none⟩)])] "o/r@r2" "o/r" "r2"
    [("r1", ⟨107, none⟩)] (by decide) (by decide) (by decide)]
  decide

/-- C8: the sibling bump of update_refs does not exempt kept references: a
sibling with keep = true also has its expiry overwritten to today plus 12
weeks, its keep flag surviving unchanged. -/
theorem update_refs_bumps_kept (today : Int) (A : ActionsYAML) (u n r r0 : String)
    (refs : ActionRefs) (d0 : RefDetails)
    (hp : parseUses u = some (n, r)) (hn : dictGet A n = some refs)
    (hr : dictMem refs r = false) (h0 : dictGet refs r0 = some d0)
    (hk : d0.keep = some true) :
    ∃ g, update_refs today [u] A = some (dictSet A n g) ∧
      dictGet g r0 = some { expires_at := calculate_expiry today 12, keep := some true } := by
  refine ⟨bumpAll today refs ++ [(r, newRefDetails)], ?_, ?_⟩
  · rw [update_refs, processStep_new today A u n r refs hp hn hr]
    rfl
  · have hm0 : dictMem (bumpAll today refs) r0 = true := by
      rw [dictMem_bumpAll, dictMem, h0]; rfl
    rw [dictGet_append_left _ _ _ hm0, dictGet_bumpAll, h0]
    simp [hk]

/-- Witness for C8: a kept sibling gets its expiry rewritten to 12 weeks
out while its keep flag stays true. -/
theorem update_refs_bumps_kept_witness :
    ∃ g, update_refs 100 ["o/r@r2"] [("o/r", [("r1", ⟨107, some true⟩)])] =
        some (dictSet [("o/r", [("r1", ⟨107, some true⟩)])] "o/r" g) ∧
      dictGet g "r1" = some ⟨184, some true⟩ :=
  update_refs_bumps_kept 100 [("o/r", [("r1", ⟨107, some true⟩)])] "o/r@r2" "o/r" "r2" "r1"
    [("r1", ⟨107, some true⟩)] ⟨107, some true⟩ (by decide) (by decide) (by decide)
    (by decide) (by decide)

theorem append_intercalate_nil (s : String) : s ++ String.intercalate "\n" [] = s := by
  rw [show String.intercalate "\n" ([] : List String) = "" from rfl, String.append_empty]

theorem groupFilterMap (cond : RefDetails → Bool) (mk : String → String → String)
    (nm : String) (g : ActionRefs) :
    g.filterMap (fun rd => if cond rd.2 then some (mk nm rd.1) else none) =
      ((g.map (fun rd => (nm, rd.1, rd.2))).filter (fun t => cond t.2.2)).map
        (fun t => mk t.1 t.2.1) := by
  induction g with
  | nil => rfl
  | cons rd g' ih =>
    by_cases hc : cond rd.2 <;>
      simp [List.filterMap_cons, List.filter_cons, hc, ih]

theorem flattenFilterMap (cond : RefDetails → Bool) (mk : String → String → String)
    (A : ActionsYAML) :
    (A.map (fun nr => nr.2.filterMap
        (fun rd => if cond rd.2 then some (mk nr.1 rd.1) else none))).flatten =
      ((storePairs A).filter (fun t => cond t.2.2)).map (fun t => mk t.1 t.2.1) := by
  induction A with
  | nil => rfl
  | cons nr A' ih =>
    simp only [storePairs] at ih ⊢
    rw [List.map_cons, List.flatten_cons, ih, groupFilterMap cond mk nr.1 nr.2,
      List.map_cons, List.flatten_cons, List.filter_append, List.map_append]

/-- C3: generate_workflow is the fixed header followed by one step line
per pair strictly beyond the four-week horizon and not kept, in store
iteration order; moreover an entry expiring exactly four weeks from today
is excluded, one expiring four weeks and a day out is included, and a kept
entry is excluded whatever its expiry. -/
theorem generate_workflow_spec :
    (∀ (today : Int) (A : ActionsYAML),
      generate_workflow today A = headerStr ++ String.intercalate "\n" (stepsSpec today A)) ∧
    (∀ today : Int,
      generate_workflow today [("o/r", [("r1", ⟨calculate_expiry today 4, none⟩)])] =
        headerStr) ∧
    (∀ today : Int,
      generate_workflow today [("o/r", [("r1", ⟨calculate_expiry today 4 + 1, none⟩)])] =
        headerStr ++ "      - uses: o/r@r1") ∧
    (∀ today : Int,
      generate_workflow today [("o/r", [("r1", ⟨today + 1, some true⟩)])] = headerStr) := by
  have hmain : ∀ (today : Int) (A : ActionsYAML),
      generate_workflow today A = headerStr ++ String.intercalate "\n" (stepsSpec today A) := by
    intro today A
    rw [generate_workflow, stepsSpec,
      flattenFilterMap (workflowCond today) (fun nm rf => "      - uses: " ++ nm ++ "@" ++ rf) A]
  refine ⟨hmain, ?_, ?_, ?_⟩
  · intro today
    have hc : workflowCond today ⟨calculate_expiry today 4, none⟩ = false := by
      simp [workflowCond]
    rw [hmain]
    simp [stepsSpec, storePairs, hc]
    exact append_intercalate_nil headerStr
  · intro today
    have hc : workflowCond today ⟨calculate_expiry today 4 + 1, none⟩ = true := by
      simp [workflowCond, keepVal]
    rw [hmain]
    simp [stepsSpec, storePairs, hc]
    rfl
  · intro today
    have hc : workflowCond today ⟨today + 1, some true⟩ = false := by
      simp [workflowCond, keepVal]
    rw [hmain]
    simp [stepsSpec, storePairs, hc]
    exact append_intercalate_nil headerStr

/-- C4: create_pattern lists the name-at-reference string of exactly the
pairs with today strictly before the expiry or kept, in store iteration
order; an entry expiring today is excluded unless kept, one expiring
tomorrow is included. -/
theorem create_pattern_spec :
    (∀ (today : Int) (A : ActionsYAML), create_pattern today A = patternSpec today A) ∧
    (∀ today : Int, create_pattern today [("o/r", [("r1", ⟨today, none⟩)])] = []) ∧
    (∀ today : Int, create_pattern today [("o/r", [("r1", ⟨today, some true⟩)])] = ["o/r@r1"]) ∧
    (∀ today : Int, create_pattern today [("o/r", [("r1", ⟨today + 1, none⟩)])] = ["o/r@r1"]) := by
  have hmain : ∀ (today : Int) (A : ActionsYAML),
      create_pattern today A = patternSpec today A := by
    intro today A
    rw [create_pattern, patternSpec,
      flattenFilterMap (patternCond today) (fun nm rf => nm ++ "@" ++ rf) A]
  refine ⟨hmain, ?_, ?_, ?_⟩
  · intro today
    have hc : patternCond today ⟨today, none⟩ = false := by
      simp [patternCond, keepVal]
    rw [hmain]
    simp [patternSpec, storePairs, hc]
  · intro today
    have hc : patternCond today ⟨today, some true⟩ = true := by
      simp [patternCond, keepVal]
    rw [hmain]
    simp [patternSpec, storePairs, hc]
  · intro today
    have hc : patternCond today ⟨today + 1, none⟩ = true := by
      simp [patternCond, keepVal]
    rw [hmain]
    simp [patternSpec, storePairs, hc]

/-- C9: when no pair of the store passes the synthesizer's inclusion test
(in particular on the empty store), generate_workflow returns exactly the
fixed header, with zero step lines. -/
theorem generate_workflow_header_only (today : Int) (A : ActionsYAML)
    (h : ∀ nr ∈ A, ∀ rd ∈ nr.2, workflowCond today rd.2 = false) :
    generate_workflow today A = headerStr := by
  have hsteps : (A.map (fun nr => nr.2.filterMap
      (fun rd => if workflowCond today rd.2 then
        some ("      - uses: " ++ nr.1 ++ "@" ++ rd.1) else none))).flatten = [] := by
    rw [List.flatten_eq_nil_iff]
    intro l hl
    rcases List.mem_map.mp hl with ⟨nr, hnr, rfl⟩
    rw [List.filterMap_eq_nil_iff]
    intro rd hrd
    rw [h nr hnr rd hrd]
    rfl
  rw [generate_workflow, hsteps]
  exact String.append_empty headerStr

/-- Witness for C9: a store whose only entries are kept or expiring within
the horizon yields the bare header. -/
theorem generate_workflow_header_only_witness :
    generate_workflow 0 [("o/r", [("r1", ⟨1000, some true⟩), ("r2", ⟨5, none⟩)])] = headerStr :=
  generate_workflow_header_only 0 [("o/r", [("r1", ⟨1000, some true⟩), ("r2", ⟨5, none⟩)])]
    (by decide)

theorem delPair_ne_head (n m r : String) (g : ActionRefs) (A' : ActionsYAML) (h : m ≠ n) :
    delPair ((n, g) :: A') m r = (n, g) :: delPair A' m r := by
  have hget : dictGet ((n, g) :: A') m = dictGet A' m := by
    rw [dictGet, if_neg (fun hh => h (hh.symm))]
  rw [delPair, hget, delPair]
  cases hA : dictGet A' m with
  | none => rfl
  | some refs =>
    by_cases he : dictDel refs r = [] <;>
      simp only [he, if_true, if_false, dictDel, dictSet,
        if_neg (fun hh : n = m => h hh.symm)]

theorem foldl_delPair_other (n : String) (g : ActionRefs) :
    ∀ (pairs : List (String × String)) (A' : ActionsYAML),
      (∀ p ∈ pairs, p.1 ≠ n) →
      pairs.foldl (fun acc p => delPair acc p.1 p.2) ((n, g) :: A') =
        (n, g) :: pairs.foldl (fun acc p => delPair acc p.1 p.2) A' := by
  intro pairs
  induction pairs with
  | nil => intro A' _; rfl
  | cons p ps ih =>
    intro A' h
    rw [List.foldl_cons, List.foldl_cons,
      delPair_ne_head n p.1 p.2 g A' (h p (List.mem_cons_self p ps))]
    exact ih (delPair A' p.1 p.2) (fun q hq => h q (List.mem_cons_of_mem p hq))

theorem delPair_absent (A : ActionsYAML) (n r : String) (h : dictGet A n = none) :
    delPair A n r = A := by
  rw [delPair, h]

theorem foldl_delPair_absent (n : String) (A : ActionsYAML) (ks : List String)
    (h : dictGet A n = none) :
    (ks.map (fun k => (n, k))).foldl (fun acc p => delPair acc p.1 p.2) A = A := by
  induction ks with
  | nil => rfl
  | cons k ks ih => rw [List.map_cons, List.foldl_cons, delPair_absent A n k h, ih]

theorem foldl_dictDel_nil (ks : List String) :
    ks.foldl dictDel ([] : ActionRefs) = [] := by
  induction ks with
  | nil => rfl
  | cons k ks ih => rw [List.foldl_cons]; exact ih

theorem foldl_dictDel_cons_not_mem (rd : String × RefDetails) :
    ∀ (ks : List String) (g : ActionRefs), rd.1 ∉ ks →
      ks.foldl dictDel (rd :: g) = rd :: ks.foldl dictDel g := by
  intro ks
  induction ks with
  | nil => intro g _; rfl
  | cons k ks ih =>
    intro g h
    have hne : rd.1 ≠ k := fun hh => h (hh ▸ List.mem_cons_self k ks)
    rw [List.foldl_cons, List.foldl_cons, dictDel, if_neg hne]
    exact ih (dictDel g k) (fun hm => h (List.mem_cons_of_mem k hm))

theorem mem_expiredKeys (today : Int) (g : ActionRefs) (k : String)
    (h : k ∈ expiredKeys today g) : k ∈ g.map Prod.fst := by
  rw [expiredKeys] at h
  rcases List.mem_filterMap.mp h with ⟨rd, hrd, hk⟩
  by_cases hc : expiredCond today rd.2 = true
  · rw [if_pos hc, Option.some_inj] at hk
    exact hk ▸ List.mem_map_of_mem Prod.fst hrd
  · rw [if_neg hc] at hk
    exact absurd hk (Option.noConfusion)

theorem foldl_dictDel_expiredKeys (today : Int) :
    ∀ g : ActionRefs, (g.map Prod.fst).Nodup →
      (expiredKeys today g).foldl dictDel g =
        g.filter (fun rd => !expiredCond today rd.2) := by
  intro g
  induction g with
  | nil => intro _; rfl
  | cons rd g' ih =>
    intro hnd
    rw [List.map_cons, List.nodup_cons] at hnd
    by_cases hc : expiredCond today rd.2 = true
    · rw [expiredKeys, List.filterMap_cons, if_pos hc, List.foldl_cons, dictDel, if_pos rfl,
        List.filter_cons, hc]
      exact ih hnd.2
    · have hc' : expiredCond today rd.2 = false := by
        exact Bool.not_eq_true _ ▸ eq_false_of_ne_true hc
      have hnm : rd.1 ∉ expiredKeys today g' :=
        fun hm => hnd.1 (mem_expiredKeys today g' rd.1 hm)
      rw [expiredKeys, List.filterMap_cons, if_neg hc]
      rw [show List.filterMap (fun rd => if expiredCond today rd.2 = true then some rd.1
        else none) g' = expiredKeys today g' from rfl]
      rw [foldl_dictDel_cons_not_mem rd (expiredKeys today g') g' hnm, ih hnd.2,
        List.filter_cons, hc']
      rfl

theorem foldl_delPair_head (n : String) (A' : ActionsYAML) (hA : n ∉ A'.map Prod.fst) :
    ∀ (ks : List String) (g : ActionRefs), g ≠ [] →
      (ks.map (fun k => (n, k))).foldl (fun acc p => delPair acc p.1 p.2) ((n, g) :: A') =
        (if ks.foldl dictDel g = [] then A' else (n, ks.foldl dictDel g) :: A') := by
  intro ks
  induction ks with
  | nil =>
    intro g hg
    rw [List.map_nil, List.foldl_nil, List.foldl_nil, if_neg hg]
  | cons k ks ih =>
    intro g hg
    have hstep : delPair ((n, g) :: A') n k =
        (if dictDel g k = [] then A' else (n, dictDel g k) :: A') := by
      rw [delPair, dictGet, if_pos rfl]
      by_cases he : dictDel g k = [] <;>
        simp only [he, if_true, if_false, dictDel, dictSet, if_pos rfl]
    rw [List.map_cons, List.foldl_cons, List.foldl_cons, hstep]
    by_cases he : dictDel g k = []
    · rw [if_pos he, he, foldl_delPair_absent n A' ks ((dictGet_eq_none A' n).mpr hA),
        foldl_dictDel_nil]
      rfl
    · rw [if_neg he]
      exact ih (dictDel g k) he

theorem collectExpired_cons (today : Int) (n : String) (g : ActionRefs) (A' : ActionsYAML) :
    collectExpired today ((n, g) :: A') =
      (expiredKeys today g).map (fun k => (n, k)) ++ collectExpired today A' := by
  rw [collectExpired, List.map_cons, List.flatten_cons]
  have hhead : g.filterMap (fun rd => if expiredCond today rd.2 then some (n, rd.1) else none) =
      (expiredKeys today g).map (fun k => (n, k)) := by
    induction g with
    | nil => rfl
    | cons rd g' ihg =>
      by_cases hc : expiredCond today rd.2 = true
      · rw [List.filterMap_cons, if_pos hc, ihg,
          show expiredKeys today (rd :: g') = rd.1 :: expiredKeys today g' by
            rw [expiredKeys, List.filterMap_cons, if_pos hc]; rfl,
          List.map_cons]
      · rw [List.filterMap_cons, if_neg hc, ihg,
          show expiredKeys today (rd :: g') = expiredKeys today g' by
            rw [expiredKeys, List.filterMap_cons, if_neg hc]; rfl]
  rw [hhead]
  rfl

theorem mem_collectExpired_names (today : Int) :
    ∀ (A : ActionsYAML) (p : String × String), p ∈ collectExpired today A →
      p.1 ∈ A.map Prod.fst := by
  intro A
  induction A with
  | nil => intro p hp; exact absurd hp (List.not_mem_nil p)
  | cons nr A' ih =>
    intro p hp
    rw [show nr = (nr.1, nr.2) from rfl, collectExpired_cons] at hp
    rcases List.mem_append.mp hp with h1 | h2
    · rcases List.mem_map.mp h1 with ⟨k, _, rfl⟩
      exact List.mem_cons_self _ _
    · exact List.mem_cons_of_mem _ (ih p h2)

theorem pruneSpec_cons (today : Int) (n : String) (g : ActionRefs) (A' : ActionsYAML) :
    pruneSpec today ((n, g) :: A') =
      (if g.filter (fun rd => !expiredCond today rd.2) = [] then pruneSpec today A'
       else (n, g.filter (fun rd => !expiredCond today rd.2)) :: pruneSpec today A') := by
  rw [pruneSpec, List.map_cons, List.filter_cons]
  by_cases he : g.filter (fun rd => !expiredCond today rd.2) = []
  · rw [if_pos he, he]
    rfl
  · rw [if_neg he, show (!(g.filter (fun rd => !expiredCond today rd.2)).isEmpty) = true by
      cases hg : g.filter (fun rd => !expiredCond today rd.2) with
      | nil => exact absurd hg he
      | cons a l => rfl]
    rfl

theorem remove_eq_pruneSpec (today : Int) :
    ∀ A : ActionsYAML, WF A → remove_expired_refs today A = pruneSpec today A := by
  intro A
  induction A with
  | nil => intro _; rfl
  | cons nr A' ih =>
    intro hwf
    obtain ⟨n, g⟩ := nr
    obtain ⟨hnames, hgroups⟩ := hwf
    rw [List.map_cons, List.nodup_cons] at hnames
    have hwf' : WF A' := ⟨hnames.2, fun nr hnr => hgroups nr (List.mem_cons_of_mem _ hnr)⟩
    have hg := hgroups (n, g) (List.mem_cons_self _ _)
    rw [remove_expired_refs, collectExpired_cons, List.foldl_append,
      foldl_delPair_head n A' hnames.1 (expiredKeys today g) g hg.2,
      foldl_dictDel_expiredKeys today g hg.1, pruneSpec_cons]
    by_cases he : g.filter (fun rd => !expiredCond today rd.2) = []
    · rw [if_pos he, if_pos he]
      exact ih hwf'
    · rw [if_neg he, if_neg he,
        foldl_delPair_other n (g.filter (fun rd => !expiredCond today rd.2))
          (collectExpired today A') A'
          (fun p hp hpn =>
            hnames.1 (hpn ▸ mem_collectExpired_names today A' p hp))]
      exact congrArg (List.cons _) (ih hwf')

/-- C2: under the dict well-formedness invariant, remove_expired_refs
deletes exactly the pairs with expires_at at most today and keep not true,
then drops every name whose group has become empty; at the boundary an
entry expiring today without keep is removed, one expiring today with
keep = true is retained, and one expiring tomorrow is retained. -/
theorem remove_expired_refs_spec :
    (∀ (today : Int) (A : ActionsYAML), WF A →
      remove_expired_refs today A = pruneSpec today A) ∧
    (∀ today : Int, remove_expired_refs today [("o/r", [("r1", ⟨today, none⟩)])] = []) ∧
    (∀ today : Int, remove_expired_refs today [("o/r", [("r1", ⟨today, some true⟩)])] =
      [("o/r", [("r1", ⟨today, some true⟩)])]) ∧
    (∀ today : Int, remove_expired_refs today [("o/r", [("r1", ⟨today + 1, none⟩)])] =
      [("o/r", [("r1", ⟨today + 1, none⟩)])]) := by
  refine ⟨fun today A h => remove_eq_pruneSpec today A h, ?_, ?_, ?_⟩
  · intro today
    have hc : expiredCond today ⟨today, none⟩ = true := by simp [expiredCond, keepVal]
    rw [remove_eq_pruneSpec today _ ⟨by simp, by simp⟩, pruneSpec_cons, List.filter_cons, hc]
    rfl
  · intro today
    have hc : expiredCond today ⟨today, some true⟩ = false := by simp [expiredCond, keepVal]
    rw [remove_eq_pruneSpec today _ ⟨by simp, by simp⟩, pruneSpec_cons, List.filter_cons, hc]
    rfl
  · intro today
    have hc : expiredCond today ⟨today + 1, none⟩ = false := by
      simp [expiredCond, keepVal]
    rw [remove_eq_pruneSpec today _ ⟨by simp, by simp⟩, pruneSpec_cons, List.filter_cons, hc]
    rfl

/-- Witness for C2: on a two-name store the expired unkept references
disappear, an emptied name disappears with them, and the survivors stay. -/
theorem remove_expired_refs_spec_witness :
    remove_expired_refs 10
        [("a", [("r1", ⟨5, none⟩), ("r2", ⟨20, none⟩)]), ("b", [("r3", ⟨5, none⟩)])] =
      [("a", [("r2", ⟨20, none⟩)])] := by
  rw [remove_expired_refs_spec.1 10
    [("a", [("r1", ⟨5, none⟩), ("r2", ⟨20, none⟩)]), ("b", [("r3", ⟨5, none⟩)])] (by decide)]
  decide

theorem collectExpired_pruneSpec (today : Int) (A : ActionsYAML) :
    collectExpired today (pruneSpec today A) = [] := by
  rw [collectExpired, List.flatten_eq_nil_iff]
  intro l hl
  rcases List.mem_map.mp hl with ⟨nr, hnr, rfl⟩
  rw [List.filterMap_eq_nil_iff]
  intro rd hrd
  rw [pruneSpec] at hnr
  rcases List.mem_map.mp (List.mem_of_mem_filter hnr) with ⟨nr0, _, rfl⟩
  have hc := List.of_mem_filter hrd
  rw [Bool.not_eq_true'] at hc
  simp [hc]

/-- C7: under the dict well-formedness invariant, remove_expired_refs is
idempotent: running it twice with the same value of today gives the same
store as running it once. -/
theorem remove_expired_refs_idem (today : Int) (A : ActionsYAML) (h : WF A) :
    remove_expired_refs today (remove_expired_refs today A) =
      remove_expired_refs today A := by
  rw [remove_eq_pruneSpec today A h]
  rw [show remove_expired_refs today (pruneSpec today A) =
    (collectExpired today (pruneSpec today A)).foldl
      (fun acc p => delPair acc p.1 p.2) (pruneSpec today A) from rfl]
  rw [collectExpired_pruneSpec]
  rfl

/-- Witness for C7: the pruner applied twice equals the pruner applied
once on a concrete mixed store. -/
theorem remove_expired_refs_idem_witness :
    remove_expired_refs 10
        (remove_expired_refs 10 [("a", [("r1", ⟨5, none⟩)]), ("b", [("r2", ⟨30, none⟩)])]) =
      remove_expired_refs 10 [("a", [("r1", ⟨5, none⟩)]), ("b", [("r2", ⟨30, none⟩)])] :=
  remove_expired_refs_idem 10 [("a", [("r1", ⟨5, none⟩)]), ("b", [("r2", ⟨30, none⟩)])]
    (by decide)

theorem pruneSpec_names_sublist (today : Int) (A : ActionsYAML) :
    ((pruneSpec today A).map Prod.fst).Sublist (A.map Prod.fst) := by
  induction A with
  | nil => exact List.Sublist.refl _
  | cons nr A' ih =>
    obtain ⟨n, g⟩ := nr
    rw [pruneSpec_cons, List.map_cons]
    by_cases he : g.filter (fun rd => !expiredCond today rd.2) = []
    · rw [if_pos he]
      exact ih.cons n
    · rw [if_neg he, List.map_cons]
      exact ih.cons₂ n

theorem dictGet_pruneSpec (today : Int) :
    ∀ (A : ActionsYAML), (A.map Prod.fst).Nodup → ∀ (n : String) (g : ActionRefs),
      dictGet A n = some g →
      dictGet (pruneSpec today A) n =
        (if g.filter (fun rd => !expiredCond today rd.2) = [] then none
         else some (g.filter (fun rd => !expiredCond today rd.2))) := by
  intro A
  induction A with
  | nil => intro _ n g hg; exact absurd hg (Option.noConfusion)
  | cons nr A' ih =>
    intro hnd n g hg
    obtain ⟨m, gm⟩ := nr
    rw [List.map_cons, List.nodup_cons] at hnd
    rw [dictGet] at hg
    rw [pruneSpec_cons]
    by_cases hm : m = n
    · rw [if_pos hm, Option.some_inj] at hg
      subst hg
      by_cases he : gm.filter (fun rd => !expiredCond today rd.2) = []
      · rw [if_pos he, if_pos he, (dictGet_eq_none (pruneSpec today A') n).mpr]
        intro hmem
        exact hnd.1 (hm ▸ (pruneSpec_names_sublist today A').subset hmem)
      · rw [if_neg he, if_neg he, dictGet, if_pos hm]
    · rw [if_neg hm] at hg
      by_cases he : gm.filter (fun rd => !expiredCond today rd.2) = []
      · rw [if_pos he]
        exact ih hnd.2 n g hg
      · rw [if_neg he, dictGet, if_neg hm]
        exact ih hnd.2 n g hg

/-- C10: under the dict well-formedness invariant, remove_expired_refs
never touches a surviving entry: the surviving names keep their relative
order, a name keeps exactly the references that pass the survival test
with their details and relative order unchanged (and disappears exactly
when none survives), and each surviving group is a sublist of the original
group. -/
theorem remove_expired_refs_frame (today : Int) (A : ActionsYAML) (h : WF A) :
    ((remove_expired_refs today A).map Prod.fst).Sublist (A.map Prod.fst) ∧
    (∀ (n : String) (g : ActionRefs), dictGet A n = some g →
      dictGet (remove_expired_refs today A) n =
        (if g.filter (fun rd => !expiredCond today rd.2) = [] then none
         else some (g.filter (fun rd => !expiredCond today rd.2)))) ∧
    (∀ (n : String) (g : ActionRefs), dictGet A n = some g →
      (g.filter (fun rd => !expiredCond today rd.2)).Sublist g) := by
  rw [remove_eq_pruneSpec today A h]
  exact ⟨pruneSpec_names_sublist today A,
    fun n g hg => dictGet_pruneSpec today A h.1 n g hg,
    fun n g _ => List.filter_sublist g⟩

/-- Witness for C10: in a concrete store the surviving reference keeps its
exact details, and the name order of the result is a suborder of the
original one. -/
theorem remove_expired_refs_frame_witness :
    dictGet (remove_expired_refs 10 [("a", [("r1", ⟨5, none⟩), ("r2", ⟨20, some false⟩)])]) "a" =
      some [("r2", ⟨20, some false⟩)] := by
  rw [(remove_expired_refs_frame 10 [("a", [("r1", ⟨5, none⟩), ("r2", ⟨20, some false⟩)])]
    (by decide)).2.1 "a" [("r1", ⟨5, none⟩), ("r2", ⟨20, some false⟩)] (by decide)]
  decide

theorem hasPair_iff (A : ActionsYAML) (n r : String) :
    hasPair A n r = true ↔ ∃ refs, dictGet A n = some refs ∧ dictMem refs r = true := by
  rw [hasPair]
  cases hA : dictGet A n <;> simp

theorem dictMem_set_of_mem (l : List (String × α)) (k k' : String) (v : α)
    (h : dictMem l k' = true) : dictMem (dictSet l k v) k' = true := by
  by_cases hk : k = k'
  · rw [dictMem, hk, dictGet_set_self]
    rfl
  · rw [dictMem, dictGet_set_ne l k k' v hk]
    exact h

theorem processStep_of_hasPair (today : Int) (A : ActionsYAML) (u n r : String)
    (hp : parseUses u = some (n, r)) (h : hasPair A n r = true) :
    processStep today A u = some A := by
  rcases (hasPair_iff A n r).mp h with ⟨refs, hA, hmr⟩
  have hmem : dictMem A n = true := by rw [dictMem, hA]; rfl
  rw [processStep, hp]
  simp only [hmem, if_true, hA, Option.getD_some, hmr]

theorem processStep_hasPair (today : Int) (A B : ActionsYAML) (u n r : String)
    (hp : parseUses u = some (n, r)) (hB : processStep today A u = some B) :
    hasPair B n r = true := by
  rw [processStep, hp] at hB
  by_cases hmem : dictMem A n = true
  · simp only [hmem, if_true] at hB
    cases hA : dictGet A n with
    | none => rw [dictMem, hA] at hmem; exact absurd hmem (by simp)
    | some refs =>
      rw [hA, Option.getD_some] at hB
      by_cases hmr : dictMem refs r = true
      · rw [if_pos hmr, Option.some_inj] at hB
        subst hB
        exact (hasPair_iff _ n r).mpr ⟨refs, hA, hmr⟩
      · rw [if_neg hmr, Option.some_inj] at hB
        subst hB
        refine (hasPair_iff _ n r).mpr ⟨_, dictGet_set_self A n _, ?_⟩
        rw [dictMem, dictGet_set_self]
        rfl
  · simp only [hmem, Bool.false_eq_true, if_false] at hB
    rw [dictGet_set_self A n [], Option.getD_some] at hB
    rw [show dictMem ([] : ActionRefs) r = false from rfl] at hB
    simp only [Bool.false_eq_true, if_false, Option.some_inj] at hB
    subst hB
    refine (hasPair_iff _ n r).mpr ⟨_, dictGet_set_self _ n _, ?_⟩
    rw [dictMem, dictGet_set_self]
    rfl

theorem processStep_preserves (today : Int) (A B : ActionsYAML) (u n' r' : String)
    (hB : processStep today A u = some B) (h : hasPair A n' r' = true) :
    hasPair B n' r' = true := by
  rw [processStep] at hB
  cases hp : parseUses u with
  | none => rw [hp] at hB; exact absurd hB (Option.noConfusion)
  | some p =>
    obtain ⟨n, r⟩ := p
    rw [hp] at hB
    rcases (hasPair_iff A n' r').mp h with ⟨refs0, hA0, hmr0⟩
    by_cases hmem : dictMem A n = true
    · simp only [hmem, if_true] at hB
      cases hA : dictGet A n with
      | none => rw [dictMem, hA] at hmem; exact absurd hmem (by simp)
      | some refs =>
        rw [hA, Option.getD_some] at hB
        by_cases hmr : dictMem refs r = true
        · rw [if_pos hmr, Option.some_inj] at hB
          exact hB ▸ h
        · rw [if_neg hmr, Option.some_inj] at hB
          subst hB
          by_cases hn : n = n'
          · subst hn
            rw [hA0, Option.some_inj] at hA
            subst hA
            refine (hasPair_iff _ n r').mpr ⟨_, dictGet_set_self A n _, ?_⟩
            refine dictMem_set_of_mem _ r r' _ ?_
            rw [dictMem_bumpAll]
            exact hmr0
          · refine (hasPair_iff _ n' r').mpr ⟨refs0, ?_, hmr0⟩
            rw [dictGet_set_ne A n n' _ hn]
            exact hA0
    · simp only [hmem, Bool.false_eq_true, if_false] at hB
      rw [dictGet_set_self A n [], Option.getD_some] at hB
      rw [show dictMem ([] : ActionRefs) r = false from rfl] at hB
      simp only [Bool.false_eq_true, if_false, Option.some_inj] at hB
      subst hB
      by_cases hn : n = n'
      · subst hn
        rw [dictMem, hA0] at hmem
        exact absurd rfl hmem
      · refine (hasPair_iff _ n' r').mpr ⟨refs0, ?_, hmr0⟩
        rw [dictGet_set_ne _ n n' _ hn, dictGet_set_ne A n n' _ hn]
        exact hA0

theorem update_refs_preserves (today : Int) :
    ∀ (t : List String) (B A1 : ActionsYAML) (n r : String),
      update_refs today t B = some A1 → hasPair B n r = true → hasPair A1 n r = true := by
  intro t
  induction t with
  | nil =>
    intro B A1 n r h hB
    rw [update_refs, Option.some_inj] at h
    exact h ▸ hB
  | cons u t ih =>
    intro B A1 n r h hB
    rw [update_refs] at h
    cases hps : processStep today B u with
    | none => rw [hps] at h; exact absurd h (Option.noConfusion)
    | some C =>
      rw [hps] at h
      exact ih C A1 n r h (processStep_preserves today B C u n r hps hB)

/-- C6: an observed pair whose reference is already in the store leaves
the store untouched (so a later duplicate in the same call is a no-op
after the first occurrence), and a successful update_refs is idempotent:
replaying the same observed steps on its result changes nothing. -/
theorem update_refs_noop :
    (∀ (today : Int) (A : ActionsYAML) (u n r : String),
      parseUses u = some (n, r) → hasPair A n r = true →
      processStep today A u = some A) ∧
    (∀ (today : Int) (steps : List String) (A A1 : ActionsYAML),
      update_refs today steps A = some A1 → update_refs today steps A1 = some A1) := by
  constructor
  · exact fun today A u n r hp h => processStep_of_hasPair today A u n r hp h
  · intro today steps
    induction steps with
    | nil =>
      intro A A1 h
      rw [update_refs, Option.some_inj] at h
      rfl
    | cons u t ih =>
      intro A A1 h
      rw [update_refs] at h
      cases hps : processStep today A u with
      | none => rw [hps] at h; exact absurd h (Option.noConfusion)
      | some B =>
        rw [hps] at h
        cases hp : parseUses u with
        | none =>
          rw [processStep, hp] at hps
          exact absurd hps (Option.noConfusion)
        | some p =>
          obtain ⟨n, r⟩ := p
          have h1 : hasPair B n r = true := processStep_hasPair today A B u n r hp hps
          have h2 : hasPair A1 n r = true := update_refs_preserves today t B A1 n r h h1
          rw [update_refs, processStep_of_hasPair today A1 u n r hp h2]
          exact ih B A1 h

/-- Witness for C6: replaying the step that built the store is a no-op. -/
theorem update_refs_noop_witness :
    update_refs 0 ["o/r@xyz"] [("o/r", [("xyz", newRefDetails)])] =
      some [("o/r", [("xyz", newRefDetails)])] :=
  update_refs_noop.2 0 ["o/r@xyz"] [] [("o/r", [("xyz", newRefDetails)])] (by decide)

theorem splitOnChar_ne_nil (c : Char) : ∀ l : List Char, splitOnChar c l ≠ [] := by
  intro l
  induction l with
  | nil => simp [splitOnChar]
  | cons x t ih =>
    rw [splitOnChar]
    by_cases hx : x = c
    · rw [if_pos hx]
      simp
    · rw [if_neg hx]
      cases hs : splitOnChar c t with
      | nil => exact absurd hs ih
      | cons h t' => simp [consPart]

theorem splitOnChar_length (c : Char) :
    ∀ l : List Char, (splitOnChar c l).length = l.count c + 1 := by
  intro l
  induction l with
  | nil => rfl
  | cons x t ih =>
    rw [splitOnChar]
    by_cases hx : x = c
    · rw [if_pos hx, List.length_cons, ih, List.count_cons]
      simp [hx]
    · rw [if_neg hx]
      cases hs : splitOnChar c t with
      | nil => exact absurd hs (splitOnChar_ne_nil c t)
      | cons h t' =>
        have h2 := ih
        rw [hs] at h2
        rw [consPart, List.count_cons]
        simp only [List.length_cons] at h2 ⊢
        simp only [hx, decide_eq_true_eq, if_false, beq_iff_eq]
        omega

theorem splitOnChar_single (c : Char) :
    ∀ l m : List Char, splitOnChar c l = [m] → m = l ∧ c ∉ l := by
  intro l
  induction l with
  | nil =>
    intro m h
    rw [splitOnChar] at h
    injection h with h1 _
    exact ⟨h1.symm, List.not_mem_nil c⟩
  | cons x t ih =>
    intro m h
    rw [splitOnChar] at h
    by_cases hx : x = c
    · rw [if_pos hx] at h
      injection h with _ h2
      exact absurd h2 (splitOnChar_ne_nil c t)
    · rw [if_neg hx] at h
      cases hs : splitOnChar c t with
      | nil => exact absurd hs (splitOnChar_ne_nil c t)
      | cons hh tt =>
        rw [hs, consPart] at h
        injection h with h1 h2
        obtain ⟨hm, hc⟩ := ih hh (by rw [hs, h2])
        constructor
        · rw [← h1, hm]
        · intro hmem
          rcases List.mem_cons.mp hmem with h3 | h4
          · exact hx h3.symm
          · exact hc h4

theorem splitOnChar_pair (c : Char) :
    ∀ l n r : List Char, splitOnChar c l = [n, r] →
      l = n ++ c :: r ∧ c ∉ n ∧ c ∉ r := by
  intro l
  induction l with
  | nil =>
    intro n r h
    rw [splitOnChar] at h
    injection h with _ h2
    exact absurd h2.symm (List.cons_ne_nil r [])
  | cons x t ih =>
    intro n r h
    rw [splitOnChar] at h
    by_cases hx : x = c
    · rw [if_pos hx] at h
      injection h with h1 h2
      obtain ⟨hm, hc⟩ := splitOnChar_single c t r h2
      refine ⟨?_, ?_, ?_⟩
      · rw [← h1, List.nil_append, hx, hm]
      · rw [← h1]
        exact List.not_mem_nil c
      · rw [hm]
        exact hc
    · rw [if_neg hx] at h
      cases hs : splitOnChar c t with
      | nil => exact absurd hs (splitOnChar_ne_nil c t)
      | cons hh tt =>
        rw [hs, consPart] at h
        injection h with h1 h2
        obtain ⟨ht, hcn, hcr⟩ := ih hh r (by rw [hs, h2])
        refine ⟨?_, ?_, hcr⟩
        · rw [← h1, ht, List.cons_append]
        · rw [← h1]
          intro hmem
          rcases List.mem_cons.mp hmem with h3 | h4
          · exact hx h3.symm
          · exact hcn h4

/-- Counterexample to C5 as stated: on the uses string a-at-b-at-c, which
holds two separators, update_refs does not split at the last separator
into name a-at-b and reference c; the two-variable unpacking of a
three-part split raises instead, and the whole call errors out. -/
theorem update_refs_split_counterexample :
    update_refs 0 ["a@b@c"] [] = none ∧
    update_refs 0 ["a@b@c"] [] ≠ some [("a@b", [("c", newRefDetails)])] := by
  constructor
  · decide
  · decide

/-- C5 (amended): update_refs splits the uses string at its separator
exactly when the string holds exactly one at-sign, name before it and
reference after it; with no separator — and likewise with more than
one — the unpacking raises an error that propagates, aborting the whole
call rather than silently skipping the step. -/
theorem update_refs_split_amended (s : String) :
    (∀ n r : String, parseUses s = some (n, r) →
      s.data = n.data ++ '@' :: r.data ∧ '@' ∉ n.data ∧ '@' ∉ r.data) ∧
    (parseUses s = none ↔ s.data.count '@' ≠ 1) ∧
    (parseUses s = none → ∀ (today : Int) (A : ActionsYAML) (t : List String),
      update_refs today (s :: t) A = none) := by
  refine ⟨?_, ?_, ?_⟩
  · intro n r h
    rw [parseUses] at h
    rcases hs : splitOnChar '@' s.data with _ | ⟨a, _ | ⟨b, _ | ⟨e, l⟩⟩⟩ <;> rw [hs] at h
    · exact absurd h (Option.noConfusion)
    · exact absurd h (Option.noConfusion)
    · simp only [Option.some_inj, Prod.mk.injEq] at h
      obtain ⟨hn, hr⟩ := h
      obtain ⟨hl, hca, hcb⟩ := splitOnChar_pair '@' s.data a b hs
      subst hn
      subst hr
      exact ⟨hl, hca, hcb⟩
    · exact absurd h (Option.noConfusion)
  · have hlen := splitOnChar_length '@' s.data
    rw [parseUses]
    rcases hs : splitOnChar '@' s.data with _ | ⟨a, _ | ⟨b, _ | ⟨e, l⟩⟩⟩ <;>
      rw [hs] at hlen <;> simp only [List.length_cons, List.length_nil] at hlen <;> simp
    · omega
    · omega
    · omega
    · omega
  · intro h today A t
    have hps : processStep today A s = none := by rw [processStep, h]
    rw [update_refs, hps]

/-- Witness for the amended C5: a uses string with no separator aborts
the whole update, later steps included. -/
theorem update_refs_split_amended_witness :
    update_refs 0 ["abc", "x@y"] [] = none :=
  (update_refs_split_amended "abc").2.2 (by decide) 0 [] ["x@y"]
